import Mathlib

/-!
Verification of the OpenWriter client-side pagination engine
(src/components/PagedView.tsx).

The pagination engine consists of:
  - geometry constants PAGE_WIDTH, PAGE_HEIGHT, PAGE_MARGIN, PAGE_BODY_HEIGHT;
  - parseBlocks, splitting an HTML string into top-level block fragments
    (the DOM parse itself is external and is modelled as a parameter
    domChildren returning the outerHTML of the container children);
  - isHardPageBreak, a substring-based classifier for explicit break markers;
  - measureBlock, which measures one block on an offscreen surface (the DOM
    measurement results are modelled as a parameter; the mutable innerHTML of
    the measurement surface is threaded explicitly as a String state);
  - paginate, a greedy single-pass fold over the block list with state
    (result pages, current page, current accumulated height).

Heights are JavaScript numbers in the source and are modelled as rationals.
JavaScript String.prototype.includes and String.prototype.trim are modelled
by jsIncludes and jsTrim below.
-/

/-- Page width in px: 8.5 inches at 96 DPI (source line 4). -/
def PAGE_WIDTH : ℚ := 816

/-- Page height in px: 11 inches at 96 DPI (source line 5). -/
def PAGE_HEIGHT : ℚ := 1056

/-- Uniform margin in px: 1 inch (source line 6). -/
def PAGE_MARGIN : ℚ := 96

/-- Usable body height per page (source line 7). -/
def PAGE_BODY_HEIGHT : ℚ := PAGE_HEIGHT - PAGE_MARGIN * 2

/-- Model of JavaScript String.prototype.includes: substring containment. -/
def jsIncludes (s pat : String) : Bool := decide (pat.toList <:+: s.toList)

/-- Model of JavaScript String.prototype.trim: drop leading and trailing
whitespace. -/
def jsTrim (s : String) : String :=
  String.mk (((s.data.dropWhile Char.isWhitespace).reverse.dropWhile Char.isWhitespace).reverse)

/-- Source lines 34-38: a block is a hard page break when its markup contains
one of the three marker substrings anywhere. -/
def isHardPageBreak (blockHtml : String) : Bool :=
  jsIncludes blockHtml "page-break" || jsIncludes blockHtml "ck-page-break" ||
    jsIncludes blockHtml "pagebreak"

/-- Source lines 18-31: parse HTML content into block elements.  The DOM
parse (container.innerHTML = html; container.children) is external to the
program and is passed as the parameter domChildren, which returns the list of
outerHTML strings of the container element children. -/
def parseBlocks (domChildren : String → List String) (html : String) : List String :=
  if html = "" ∨ jsTrim html = "" then []
  else
    let blocks := domChildren html
    if blocks.length > 0 then blocks
    else if jsTrim html ≠ "" then ["<p>" ++ html ++ "</p>"] else []

/-- Source lines 13-15: a page is an ordered list of block fragments. -/
structure PageData where
  blocks : List String
deriving DecidableEq

/-- The loop state of paginate (source lines 76-78): output pages so far,
current page, current accumulated height. -/
structure PagState where
  result : List PageData
  currentPage : PageData
  currentHeight : ℚ
deriving DecidableEq

/-- One iteration of the for-loop of paginate (source lines 80-101), for one
block: a hard break closes the current page and is consumed; otherwise the
block is measured, a soft break closes a nonempty overfull page, and the
block is appended to the current page. -/
def paginateStep (measure : String → ℚ) (s : PagState) (block : String) : PagState :=
  if isHardPageBreak block then
    ⟨s.result ++ [s.currentPage], ⟨[]⟩, 0⟩
  else
    let blockHeight := measure block
    if s.currentHeight + blockHeight > PAGE_BODY_HEIGHT ∧ s.currentPage.blocks.length > 0 then
      ⟨s.result ++ [s.currentPage], ⟨[block]⟩, blockHeight⟩
    else
      ⟨s.result, ⟨s.currentPage.blocks ++ [block]⟩, s.currentHeight + blockHeight⟩

/-- Source lines 71-109: the pagination algorithm.  The measurement callback
is a parameter, as in the source (paginate closes over measureBlock).  An
empty block list yields one empty page; otherwise the loop runs over the
blocks and the final page is appended when it is nonempty or no page was
produced at all. -/
def paginate (measure : String → ℚ) (blocks : List String) : List PageData :=
  if blocks.length = 0 then [⟨[]⟩]
  else
    let s := blocks.foldl (paginateStep measure) ⟨[], ⟨[]⟩, 0⟩
    if s.currentPage.blocks.length > 0 ∨ s.result.length = 0 then s.result ++ [s.currentPage]
    else s.result

/-- Source line 166: the footer text of the page at pageIndex in pages. -/
def footerText (pageIndex : Nat) (pages : List PageData) : String :=
  "Page " ++ toString (pageIndex + 1) ++ " of " ++ toString pages.length

/-- All blocks of a page list, concatenated in page order. -/
def allBlocks (pages : List PageData) : List String := (pages.map PageData.blocks).flatten

/-- Sum of the measured heights of a list of blocks. -/
def sumHeights (measure : String → ℚ) (blocks : List String) : ℚ :=
  (blocks.map measure).sum

/-- A page respects the capacity, or holds exactly one over-tall block. -/
def WithinCapacity (measure : String → ℚ) (p : PageData) : Prop :=
  sumHeights measure p.blocks ≤ PAGE_BODY_HEIGHT ∨
    ∃ b, p.blocks = [b] ∧ measure b > PAGE_BODY_HEIGHT

/-- What the DOM reports for the first element child of the measurement
surface after its innerHTML is set to one block fragment (source lines
53-63): the two computed margin values as parsed by parseFloat (none models
NaN, absorbed by the JavaScript expression parseFloat(x) || 0), and the
height of the bounding client rect. -/
structure ElementInfo where
  marginTopStyle : Option ℚ
  marginBottomStyle : Option ℚ
  rectHeight : ℚ
deriving DecidableEq

/-- Source lines 49-68: measure the height of a single block, including its
margins, on the offscreen surface.  The parameter dom is none when
measureRef.current is null (no measurement surface); otherwise it maps the
innerHTML written to the surface to its first element child, none meaning no
renderable element.  The String component of the state and result is the
mutable innerHTML of the surface, which the source overwrites with the block
and clears before returning. -/
def measureBlock (dom : Option (String → Option ElementInfo)) (blockHtml : String)
    (surface : String) : ℚ × String :=
  match dom with
  | none => (40, surface)
  | some firstElementChildOf =>
    match firstElementChildOf blockHtml with
    | none => (40, "")
    | some element =>
      let marginTop := element.marginTopStyle.getD 0
      let marginBottom := element.marginBottomStyle.getD 0
      (element.rectHeight + marginTop + marginBottom, "")

/-- One iteration of the pagination loop with the measurement surface state
threaded explicitly through measureBlock. -/
def paginateStepS (dom : Option (String → Option ElementInfo)) (s : PagState × String)
    (block : String) : PagState × String :=
  if isHardPageBreak block then
    (⟨s.1.result ++ [s.1.currentPage], ⟨[]⟩, 0⟩, s.2)
  else
    let m := measureBlock dom block s.2
    if s.1.currentHeight + m.1 > PAGE_BODY_HEIGHT ∧ s.1.currentPage.blocks.length > 0 then
      (⟨s.1.result ++ [s.1.currentPage], ⟨[block]⟩, m.1⟩, m.2)
    else
      (⟨s.1.result, ⟨s.1.currentPage.blocks ++ [block]⟩, s.1.currentHeight + m.1⟩, m.2)

/-- The pagination algorithm with the measurement surface state threaded
explicitly: consumes the incoming surface contents and returns the page list
together with the final surface contents. -/
def paginateS (dom : Option (String → Option ElementInfo)) (blocks : List String)
    (surface : String) : List PageData × String :=
  if blocks.length = 0 then ([⟨[]⟩], surface)
  else
    let s := blocks.foldl (paginateStepS dom) (⟨[], ⟨[]⟩, 0⟩, surface)
    (if s.1.currentPage.blocks.length > 0 ∨ s.1.result.length = 0
      then s.1.result ++ [s.1.currentPage] else s.1.result, s.2)

/-- The height reported by measureBlock, which is independent of the incoming
surface contents. -/
def measuredHeight (dom : Option (String → Option ElementInfo)) (blockHtml : String) : ℚ :=
  (measureBlock dom blockHtml "").1

theorem PAGE_BODY_HEIGHT_eq : PAGE_BODY_HEIGHT = 864 := by
  norm_num [PAGE_BODY_HEIGHT, PAGE_HEIGHT, PAGE_MARGIN]

theorem paginateStep_hard (measure : String → ℚ) (s : PagState) (b : String)
    (hb : isHardPageBreak b = true) :
    paginateStep measure s b = ⟨s.result ++ [s.currentPage], ⟨[]⟩, 0⟩ := by
  simp [paginateStep, hb]

theorem paginateStep_overflow (measure : String → ℚ) (s : PagState) (b : String)
    (hb : isHardPageBreak b = false)
    (hov : s.currentHeight + measure b > PAGE_BODY_HEIGHT ∧ s.currentPage.blocks.length > 0) :
    paginateStep measure s b = ⟨s.result ++ [s.currentPage], ⟨[b]⟩, measure b⟩ := by
  simp [paginateStep, hb, hov]

theorem paginateStep_fit (measure : String → ℚ) (s : PagState) (b : String)
    (hb : isHardPageBreak b = false)
    (hov : ¬(s.currentHeight + measure b > PAGE_BODY_HEIGHT ∧ s.currentPage.blocks.length > 0)) :
    paginateStep measure s b =
      ⟨s.result, ⟨s.currentPage.blocks ++ [b]⟩, s.currentHeight + measure b⟩ := by
  simp [paginateStep, hb, hov]

theorem allBlocks_append (a b : List PageData) :
    allBlocks (a ++ b) = allBlocks a ++ allBlocks b := by
  simp [allBlocks]

theorem allBlocks_nil : allBlocks [] = [] := rfl

theorem allBlocks_singleton (p : PageData) : allBlocks [p] = p.blocks := by
  simp [allBlocks]

/-- Running the loop extends the concatenation of all placed blocks by
exactly the non-hard-break input blocks, in order. -/
theorem foldl_paginateStep_allBlocks (measure : String → ℚ) (bs : List String) :
    ∀ s : PagState,
      allBlocks (bs.foldl (paginateStep measure) s).result ++
          (bs.foldl (paginateStep measure) s).currentPage.blocks =
        allBlocks s.result ++ s.currentPage.blocks ++
          bs.filter (fun b => !isHardPageBreak b) := by
  induction bs with
  | nil => intro s; simp
  | cons b rest ih =>
    intro s
    rw [List.foldl_cons, ih]
    by_cases hb : isHardPageBreak b
    · rw [paginateStep_hard measure s b hb]
      simp [allBlocks_append, allBlocks_singleton, List.filter_cons, hb]
    · rw [Bool.not_eq_true] at hb
      by_cases hov : s.currentHeight + measure b > PAGE_BODY_HEIGHT ∧
          s.currentPage.blocks.length > 0
      · rw [paginateStep_overflow measure s b hb hov]
        simp [allBlocks_append, allBlocks_singleton, List.filter_cons, hb]
      · rw [paginateStep_fit measure s b hb hov]
        simp [List.filter_cons, hb]

/-- The concatenation of the blocks of all output pages equals the input with
the hard-break markers removed. -/
theorem paginate_allBlocks (measure : String → ℚ) (bs : List String) :
    allBlocks (paginate measure bs) = bs.filter (fun b => !isHardPageBreak b) := by
  unfold paginate
  by_cases h0 : bs.length = 0
  · rw [List.length_eq_zero] at h0
    subst h0
    simp [allBlocks]
  · simp only [h0, if_false]
    have h := foldl_paginateStep_allBlocks measure bs ⟨[], ⟨[]⟩, 0⟩
    simp only [allBlocks_nil, List.nil_append] at h
    by_cases hc : (bs.foldl (paginateStep measure) ⟨[], ⟨[]⟩, 0⟩).currentPage.blocks.length > 0 ∨
        (bs.foldl (paginateStep measure) ⟨[], ⟨[]⟩, 0⟩).result.length = 0
    · simp only [hc, if_true, allBlocks_append, allBlocks_singleton]
      exact h
    · simp only [hc, if_false]
      push_neg at hc
      have hemp : (bs.foldl (paginateStep measure) ⟨[], ⟨[]⟩, 0⟩).currentPage.blocks = [] :=
        List.length_eq_zero.mp (Nat.le_zero.mp hc.1)
      rw [hemp, List.append_nil] at h
      exact h

/-- Claim C1: block conservation.  For every measurer and every input block
sequence, concatenating the block lists of the output pages of paginate in
page order yields exactly the non-hard-break input blocks in their original
relative order (hence equal count). -/
theorem paginate_conserves_blocks (measure : String → ℚ) (bs : List String) :
    allBlocks (paginate measure bs) = bs.filter (fun b => !isHardPageBreak b) :=
  paginate_allBlocks measure bs

theorem sumHeights_nil (measure : String → ℚ) : sumHeights measure [] = 0 := rfl

theorem sumHeights_append (measure : String → ℚ) (a b : List String) :
    sumHeights measure (a ++ b) = sumHeights measure a + sumHeights measure b := by
  simp [sumHeights]

theorem withinCapacity_empty (measure : String → ℚ) : WithinCapacity measure ⟨[]⟩ := by
  left
  rw [sumHeights_nil, PAGE_BODY_HEIGHT_eq]
  norm_num

theorem withinCapacity_single (measure : String → ℚ) (b : String) :
    WithinCapacity measure ⟨[b]⟩ := by
  rcases le_or_lt (measure b) PAGE_BODY_HEIGHT with hle | hgt
  · left
    simpa [sumHeights] using hle
  · exact Or.inr ⟨b, rfl, hgt⟩

/-- One loop step preserves: the accumulated height tracks the current page,
and every page placed so far (including the current one) respects the
capacity. -/
theorem paginateStep_capacity (measure : String → ℚ) (s : PagState) (b : String)
    (h1 : s.currentHeight = sumHeights measure s.currentPage.blocks)
    (h2 : WithinCapacity measure s.currentPage)
    (h3 : ∀ p ∈ s.result, WithinCapacity measure p) :
    (paginateStep measure s b).currentHeight =
        sumHeights measure (paginateStep measure s b).currentPage.blocks ∧
      WithinCapacity measure (paginateStep measure s b).currentPage ∧
      ∀ p ∈ (paginateStep measure s b).result, WithinCapacity measure p := by
  by_cases hb : isHardPageBreak b
  · rw [paginateStep_hard measure s b hb]
    refine ⟨by simp [sumHeights_nil], withinCapacity_empty measure, ?_⟩
    intro p hp
    rcases List.mem_append.mp hp with h | h
    · exact h3 p h
    · rw [List.mem_singleton.mp h]; exact h2
  · rw [Bool.not_eq_true] at hb
    by_cases hov : s.currentHeight + measure b > PAGE_BODY_HEIGHT ∧
        s.currentPage.blocks.length > 0
    · rw [paginateStep_overflow measure s b hb hov]
      refine ⟨by simp [sumHeights], withinCapacity_single measure b, ?_⟩
      intro p hp
      rcases List.mem_append.mp hp with h | h
      · exact h3 p h
      · rw [List.mem_singleton.mp h]; exact h2
    · rw [paginateStep_fit measure s b hb hov]
      refine ⟨?_, ?_, h3⟩
      · simp only [sumHeights_append, ← h1]
        simp [sumHeights]
      · rcases Nat.eq_zero_or_pos s.currentPage.blocks.length with hlen | hlen

        · have hcur : s.currentPage.blocks = [] := List.length_eq_zero.mp hlen
          simp only [hcur, List.nil_append]
          exact withinCapacity_single measure b
        · have hle : s.currentHeight + measure b ≤ PAGE_BODY_HEIGHT := by
            by_contra hgt
            exact hov ⟨lt_of_not_le hgt, hlen⟩
          left
          simp only [sumHeights_append, ← h1]
          simpa [sumHeights] using hle

/-- Loop invariant for the capacity property over the whole fold. -/
theorem foldl_paginateStep_capacity (measure : String → ℚ) (bs : List String) :
    ∀ s : PagState,
      s.currentHeight = sumHeights measure s.currentPage.blocks →
      WithinCapacity measure s.currentPage →
      (∀ p ∈ s.result, WithinCapacity measure p) →
      (bs.foldl (paginateStep measure) s).currentHeight =
          sumHeights measure (bs.foldl (paginateStep measure) s).currentPage.blocks ∧
        WithinCapacity measure (bs.foldl (paginateStep measure) s).currentPage ∧
        ∀ p ∈ (bs.foldl (paginateStep measure) s).result, WithinCapacity measure p := by
  induction bs with
  | nil => intro s h1 h2 h3; exact ⟨h1, h2, h3⟩
  | cons b rest ih =>
    intro s h1 h2 h3
    rw [List.foldl_cons]
    have hstep := paginateStep_capacity measure s b h1 h2 h3
    exact ih (paginateStep measure s b) hstep.1 hstep.2.1 hstep.2.2

/-- Claim C2: page capacity invariant.  Every output page (not only the
non-final ones) either has total measured height at most PAGE_BODY_HEIGHT or
consists of exactly one block whose measured height exceeds it. -/
theorem paginate_page_capacity (measure : String → ℚ) (bs : List String) :
    ∀ p ∈ paginate measure bs,
      sumHeights measure p.blocks ≤ PAGE_BODY_HEIGHT ∨
        ∃ b, p.blocks = [b] ∧ measure b > PAGE_BODY_HEIGHT := by
  intro p hp
  unfold paginate at hp
  by_cases h0 : bs.length = 0
  · simp only [h0, if_true, List.mem_singleton] at hp
    subst hp
    exact withinCapacity_empty measure
  · simp only [h0, if_false] at hp
    have hinv := foldl_paginateStep_capacity measure bs ⟨[], ⟨[]⟩, 0⟩
      (by simp [sumHeights_nil]) (withinCapacity_empty measure) (by intro p hp; simp at hp)
    by_cases hc : (bs.foldl (paginateStep measure) ⟨[], ⟨[]⟩, 0⟩).currentPage.blocks.length > 0 ∨
        (bs.foldl (paginateStep measure) ⟨[], ⟨[]⟩, 0⟩).result.length = 0
    · simp only [hc, if_true] at hp
      rcases List.mem_append.mp hp with h | h
      · exact hinv.2.2 p h
      · rw [List.mem_singleton.mp h]; exact hinv.2.1
    · simp only [hc, if_false] at hp
      exact hinv.2.2 p hp

/-- Witness for C2 at a concrete input: the single page produced for one
40-unit block satisfies the capacity disjunction. -/
theorem paginate_page_capacity_witness :
    sumHeights (fun _ => (40:ℚ)) (PageData.mk ["<p>x</p>"]).blocks ≤ PAGE_BODY_HEIGHT ∨
      ∃ b, (PageData.mk ["<p>x</p>"]).blocks = [b] ∧ (fun _ => (40:ℚ)) b > PAGE_BODY_HEIGHT :=
  paginate_page_capacity (fun _ => (40:ℚ)) ["<p>x</p>"] (PageData.mk ["<p>x</p>"]) (by
    have h1 : isHardPageBreak "<p>x</p>" = false := by decide
    simp [paginate, paginateStep, h1])

theorem mem_allBlocks_of_mem {b : String} {p : PageData} {ps : List PageData}
    (hp : p ∈ ps) (hb : b ∈ p.blocks) : b ∈ allBlocks ps :=
  List.mem_flatten.mpr ⟨p.blocks, List.mem_map_of_mem PageData.blocks hp, hb⟩

theorem exists_page_of_mem_allBlocks {b : String} {ps : List PageData}
    (h : b ∈ allBlocks ps) : ∃ p ∈ ps, b ∈ p.blocks := by
  rcases List.mem_flatten.mp h with ⟨l, hl, hbl⟩
  rcases List.mem_map.mp hl with ⟨p, hp, hpl⟩
  exact ⟨p, hp, hpl ▸ hbl⟩

/-- No block appearing on an output page is classified as a hard break. -/
theorem paginate_output_not_hard (measure : String → ℚ) (bs : List String) :
    ∀ p ∈ paginate measure bs, ∀ b ∈ p.blocks, isHardPageBreak b = false := by
  intro p hp b hb
  have hmem : b ∈ allBlocks (paginate measure bs) := mem_allBlocks_of_mem hp hb
  rw [paginate_allBlocks] at hmem
  have := List.of_mem_filter hmem
  simpa using this

/-- Claim C9: substring-based break detection.  A block is classified as a
hard break exactly when its markup contains one of the three marker
substrings anywhere (including inside visible text), and every block so
classified is consumed as a separator: it never appears on any output page of
paginate, so its content is dropped. -/
theorem isHardPageBreak_substring_drops (b : String) :
    isHardPageBreak b =
        (jsIncludes b "page-break" || jsIncludes b "ck-page-break" ||
          jsIncludes b "pagebreak") ∧
      (isHardPageBreak b = true →
        ∀ (measure : String → ℚ) (bs : List String), ∀ p ∈ paginate measure bs,
          b ∉ p.blocks) := by
  refine ⟨rfl, ?_⟩
  intro hb measure bs p hp hmem
  have hfalse := paginate_output_not_hard measure bs p hp b hmem
  rw [hb] at hfalse
  exact absurd hfalse (by decide)

/-- Witness for C9: an ordinary paragraph whose visible text contains the
word pagebreak is classified as a hard break, and its content is absent from
the page produced for a document containing it. -/
theorem isHardPageBreak_substring_drops_witness :
    isHardPageBreak "<p>a pagebreak inside text</p>" = true ∧
      "<p>a pagebreak inside text</p>" ∉ (PageData.mk ["<p>x</p>"]).blocks := by
  constructor
  · decide
  · exact (isHardPageBreak_substring_drops "<p>a pagebreak inside text</p>").2 (by decide)
      (fun _ => (40:ℚ)) ["<p>x</p>", "<p>a pagebreak inside text</p>"]
      (PageData.mk ["<p>x</p>"]) (by
        have h1 : isHardPageBreak "<p>x</p>" = false := by decide
        have h2 : isHardPageBreak "<p>a pagebreak inside text</p>" = true := by decide
        simp [paginate, paginateStep, h1, h2])

/-- One loop step commutes with prefixing extra already-closed pages onto the
result accumulator: the step never inspects the pages already emitted. -/
theorem paginateStep_result_shift (measure : String → ℚ) (r₀ : List PageData)
    (s : PagState) (b : String) :
    paginateStep measure ⟨r₀ ++ s.result, s.currentPage, s.currentHeight⟩ b =
      ⟨r₀ ++ (paginateStep measure s b).result, (paginateStep measure s b).currentPage,
        (paginateStep measure s b).currentHeight⟩ := by
  by_cases hb : isHardPageBreak b
  · simp [paginateStep, hb]
  · by_cases hov : s.currentHeight + measure b > PAGE_BODY_HEIGHT ∧
        s.currentPage.blocks.length > 0
    · simp [paginateStep, hb, hov]
    · simp [paginateStep, hb, hov]

/-- The whole fold commutes with prefixing already-closed pages. -/
theorem foldl_paginateStep_result_shift (measure : String → ℚ) (bs : List String) :
    ∀ (r₀ : List PageData) (s : PagState),
      bs.foldl (paginateStep measure) ⟨r₀ ++ s.result, s.currentPage, s.currentHeight⟩ =
        ⟨r₀ ++ (bs.foldl (paginateStep measure) s).result,
          (bs.foldl (paginateStep measure) s).currentPage,
          (bs.foldl (paginateStep measure) s).currentHeight⟩ := by
  induction bs with
  | nil => intro r₀ s; simp
  | cons b rest ih =>
    intro r₀ s
    rw [List.foldl_cons, List.foldl_cons, paginateStep_result_shift]
    exact ih r₀ (paginateStep measure s b)

/-- Starting the loop after some pages are already closed, with a fresh
current page, yields those pages followed by a fresh run. -/
theorem foldl_from_closed (measure : String → ℚ) (ys : List String) (r₀ : List PageData) :
    ys.foldl (paginateStep measure) ⟨r₀, ⟨[]⟩, 0⟩ =
      ⟨r₀ ++ (ys.foldl (paginateStep measure) ⟨[], ⟨[]⟩, 0⟩).result,
        (ys.foldl (paginateStep measure) ⟨[], ⟨[]⟩, 0⟩).currentPage,
        (ys.foldl (paginateStep measure) ⟨[], ⟨[]⟩, 0⟩).currentHeight⟩ := by
  have h := foldl_paginateStep_result_shift measure ys r₀ ⟨[], ⟨[]⟩, 0⟩
  simpa using h

/-- Claim C3: hard-break semantics.  For any document of the form
xs ++ brk :: ys with brk a hard break, the output page list splits into a
prefix carrying exactly the non-hard-break content of xs and a suffix
carrying exactly the non-hard-break content of ys; any non-hard block B1 of
xs therefore sits on a page of strictly smaller index than any non-hard block
B2 of ys, and no hard-break block (brk included) ever appears on any page. -/
theorem paginate_hard_break_separates (measure : String → ℚ) (xs ys : List String)
    (brk B1 B2 : String)
    (hbrk : isHardPageBreak brk = true)
    (hB1 : B1 ∈ xs) (hB1n : isHardPageBreak B1 = false)
    (hB2 : B2 ∈ ys) (hB2n : isHardPageBreak B2 = false) :
    (∃ ps₁ ps₂ : List PageData,
        paginate measure (xs ++ brk :: ys) = ps₁ ++ ps₂ ∧
        allBlocks ps₁ = xs.filter (fun b => !isHardPageBreak b) ∧
        allBlocks ps₂ = ys.filter (fun b => !isHardPageBreak b) ∧
        (∃ p ∈ ps₁, B1 ∈ p.blocks) ∧ (∃ p ∈ ps₂, B2 ∈ p.blocks)) ∧
      ∀ p ∈ paginate measure (xs ++ brk :: ys), ∀ b ∈ p.blocks,
        isHardPageBreak b = false := by
  refine ⟨?_, paginate_output_not_hard measure _⟩
  obtain ⟨A, hA⟩ : ∃ A, xs.foldl (paginateStep measure) ⟨[], ⟨[]⟩, 0⟩ = A := ⟨_, rfl⟩
  obtain ⟨Y, hY⟩ : ∃ Y, ys.foldl (paginateStep measure) ⟨[], ⟨[]⟩, 0⟩ = Y := ⟨_, rfl⟩
  have hxall : allBlocks A.result ++ A.currentPage.blocks =
      xs.filter (fun b => !isHardPageBreak b) := by
    have h := foldl_paginateStep_allBlocks measure xs ⟨[], ⟨[]⟩, 0⟩
    rw [hA] at h
    simpa using h
  have hyall : allBlocks Y.result ++ Y.currentPage.blocks =
      ys.filter (fun b => !isHardPageBreak b) := by
    have h := foldl_paginateStep_allBlocks measure ys ⟨[], ⟨[]⟩, 0⟩
    rw [hY] at h
    simpa using h
  have hfold : (xs ++ brk :: ys).foldl (paginateStep measure) ⟨[], ⟨[]⟩, 0⟩ =
      ⟨(A.result ++ [A.currentPage]) ++ Y.result, Y.currentPage, Y.currentHeight⟩ := by
    rw [List.foldl_append, hA, List.foldl_cons, paginateStep_hard measure A brk hbrk,
      foldl_from_closed, hY]
  have hne : ¬((xs ++ brk :: ys).length = 0) := by simp
  have hresne : ¬(((A.result ++ [A.currentPage]) ++ Y.result).length = 0) := by simp
  have hpag0 : paginate measure (xs ++ brk :: ys) =
      if Y.currentPage.blocks.length > 0
      then (A.result ++ [A.currentPage]) ++ (Y.result ++ [Y.currentPage])
      else (A.result ++ [A.currentPage]) ++ Y.result := by
    unfold paginate
    rw [if_neg hne, hfold]
    by_cases hcur : Y.currentPage.blocks.length > 0
    · simp [hcur]
    · simp [hcur, hresne]
  have hmem1 : ∃ p ∈ A.result ++ [A.currentPage], B1 ∈ p.blocks := by
    apply exists_page_of_mem_allBlocks
    rw [allBlocks_append, allBlocks_singleton, hxall]
    exact List.mem_filter.mpr ⟨hB1, by simp [hB1n]⟩
  by_cases hcur : Y.currentPage.blocks.length > 0
  · refine ⟨A.result ++ [A.currentPage], Y.result ++ [Y.currentPage], ?_, ?_, ?_, hmem1, ?_⟩
    · rw [hpag0, if_pos hcur]
    · rw [allBlocks_append, allBlocks_singleton, hxall]
    · rw [allBlocks_append, allBlocks_singleton, hyall]
    · apply exists_page_of_mem_allBlocks
      rw [allBlocks_append, allBlocks_singleton, hyall]
      exact List.mem_filter.mpr ⟨hB2, by simp [hB2n]⟩
  · have hcurnil : Y.currentPage.blocks = [] :=
      List.length_eq_zero.mp (Nat.le_zero.mp (Nat.not_lt.mp hcur))
    refine ⟨A.result ++ [A.currentPage], Y.result, ?_, ?_, ?_, hmem1, ?_⟩
    · rw [hpag0, if_neg hcur]
    · rw [allBlocks_append, allBlocks_singleton, hxall]
    · rw [← hyall, hcurnil, List.append_nil]
    · apply exists_page_of_mem_allBlocks
      have h2 : allBlocks Y.result = ys.filter (fun b => !isHardPageBreak b) := by
        rw [← hyall, hcurnil, List.append_nil]
      rw [h2]
      exact List.mem_filter.mpr ⟨hB2, by simp [hB2n]⟩

/-- Witness for C3 at a concrete input: two paragraphs separated by an
explicit page-break marker. -/
theorem paginate_hard_break_separates_witness :
    (∃ ps₁ ps₂ : List PageData,
        paginate (fun _ => (40:ℚ))
            (["<p>a</p>"] ++ "<div class=page-break></div>" :: ["<p>b</p>"]) =
          ps₁ ++ ps₂ ∧
        allBlocks ps₁ = ["<p>a</p>"].filter (fun b => !isHardPageBreak b) ∧
        allBlocks ps₂ = ["<p>b</p>"].filter (fun b => !isHardPageBreak b) ∧
        (∃ p ∈ ps₁, "<p>a</p>" ∈ p.blocks) ∧ (∃ p ∈ ps₂, "<p>b</p>" ∈ p.blocks)) ∧
      ∀ p ∈ paginate (fun _ => (40:ℚ))
          (["<p>a</p>"] ++ "<div class=page-break></div>" :: ["<p>b</p>"]),
        ∀ b ∈ p.blocks, isHardPageBreak b = false :=
  paginate_hard_break_separates (fun _ => (40:ℚ)) ["<p>a</p>"] ["<p>b</p>"]
    "<div class=page-break></div>" "<p>a</p>" "<p>b</p>"
    (by decide) (by decide) (by decide) (by decide) (by decide)

/-- Counterexample for C4: a document whose last block is a hard-break marker
does not end with a trailing empty page.  For one paragraph followed by a
trailing break the output is a single page holding the paragraph, and no
output page is empty: the final-page guard (source line 104) drops the empty
page opened by the trailing break. -/
theorem paginate_trailing_break_no_empty_page_cex :
    paginate (fun _ => (40:ℚ)) ["<p>hi</p>", "<div class=page-break></div>"] =
        [PageData.mk ["<p>hi</p>"]] ∧
      ∀ p ∈ paginate (fun _ => (40:ℚ)) ["<p>hi</p>", "<div class=page-break></div>"],
        p.blocks ≠ [] := by
  have h1 : isHardPageBreak "<p>hi</p>" = false := by decide
  have h2 : isHardPageBreak "<div class=page-break></div>" = true := by decide
  have hev : paginate (fun _ => (40:ℚ)) ["<p>hi</p>", "<div class=page-break></div>"] =
      [PageData.mk ["<p>hi</p>"]] := by
    simp [paginate, paginateStep, h1, h2]
  refine ⟨hev, ?_⟩
  intro p hp
  rw [hev, List.mem_singleton] at hp
  subst hp
  simp

/-- Claim C4 as amended: a trailing hard break is dropped, not kept as a
trailing empty page.  When the content before the trailing break ends in a
non-hard-break block, appending a trailing hard break leaves the output page
list unchanged. -/
theorem paginate_trailing_break_dropped (measure : String → ℚ) (l : List String)
    (x brk : String) (hx : isHardPageBreak x = false) (hbrk : isHardPageBreak brk = true) :
    paginate measure ((l ++ [x]) ++ [brk]) = paginate measure (l ++ [x]) := by
  obtain ⟨A, hA⟩ : ∃ A, l.foldl (paginateStep measure) ⟨[], ⟨[]⟩, 0⟩ = A := ⟨_, rfl⟩
  obtain ⟨B, hB⟩ : ∃ B, paginateStep measure A x = B := ⟨_, rfl⟩
  have hfold1 : (l ++ [x]).foldl (paginateStep measure) ⟨[], ⟨[]⟩, 0⟩ = B := by
    rw [List.foldl_append, hA]
    simpa using hB
  have hcurne : B.currentPage.blocks.length > 0 := by
    by_cases hov : A.currentHeight + measure x > PAGE_BODY_HEIGHT ∧
        A.currentPage.blocks.length > 0
    · rw [paginateStep_overflow measure A x hx hov] at hB
      rw [← hB]
      simp
    · rw [paginateStep_fit measure A x hx hov] at hB
      rw [← hB]
      simp
  have hfold2 : ((l ++ [x]) ++ [brk]).foldl (paginateStep measure) ⟨[], ⟨[]⟩, 0⟩ =
      ⟨B.result ++ [B.currentPage], ⟨[]⟩, 0⟩ := by
    rw [List.foldl_append, hfold1]
    simpa using paginateStep_hard measure B brk hbrk
  have hne1 : ¬((l ++ [x]).length = 0) := by simp
  have hne2 : ¬(((l ++ [x]) ++ [brk]).length = 0) := by simp
  unfold paginate
  rw [if_neg hne1, if_neg hne2, hfold1, hfold2]
  simp [hcurne]

/-- Witness for the amended C4: two paragraphs followed by a trailing break
paginate exactly as the two paragraphs alone. -/
theorem paginate_trailing_break_dropped_witness :
    paginate (fun _ => (40:ℚ))
        ((["<p>a</p>"] ++ ["<p>b</p>"]) ++ ["<div class=page-break></div>"]) =
      paginate (fun _ => (40:ℚ)) (["<p>a</p>"] ++ ["<p>b</p>"]) :=
  paginate_trailing_break_dropped (fun _ => (40:ℚ)) ["<p>a</p>"] "<p>b</p>"
    "<div class=page-break></div>" (by decide) (by decide)

/-- Claim C5: empty document.  For every content string that is empty or
whitespace-only, parseBlocks yields no blocks, paginate yields exactly one
page with zero blocks, and the footer of that page reads Page 1 of 1. -/
theorem paginate_empty_document (measure : String → ℚ)
    (domChildren : String → List String) (html : String)
    (h : html = "" ∨ jsTrim html = "") :
    parseBlocks domChildren html = [] ∧
      paginate measure (parseBlocks domChildren html) = [⟨[]⟩] ∧
      footerText 0 (paginate measure (parseBlocks domChildren html)) = "Page 1 of 1" := by
  have hpb : parseBlocks domChildren html = [] := by simp [parseBlocks, h]
  refine ⟨hpb, ?_, ?_⟩
  · rw [hpb]
    simp [paginate]
  · rw [hpb]
    have hpp : paginate measure [] = [⟨[]⟩] := by simp [paginate]
    rw [hpp]
    decide

/-- Witness for C5: the whitespace-only content string. -/
theorem paginate_empty_document_witness :
    parseBlocks (fun _ => []) "   " = [] ∧
      paginate (fun _ => (40:ℚ)) (parseBlocks (fun _ => []) "   ") = [⟨[]⟩] ∧
      footerText 0 (paginate (fun _ => (40:ℚ)) (parseBlocks (fun _ => []) "   ")) =
        "Page 1 of 1" :=
  paginate_empty_document (fun _ => (40:ℚ)) (fun _ => []) "   " (Or.inr (by decide))

/-- Claim C10: plain-text wrapping in parseBlocks.  When the content string
is non-empty after trimming but the DOM parse yields no element children,
parseBlocks returns exactly one block: the original string wrapped in a
paragraph element.  For empty or whitespace-only strings it returns the
empty block list. -/
theorem parseBlocks_plain_text_wrapping (domChildren : String → List String) (html : String) :
    (jsTrim html ≠ "" → domChildren html = [] →
        parseBlocks domChildren html = ["<p>" ++ html ++ "</p>"]) ∧
      ((html = "" ∨ jsTrim html = "") → parseBlocks domChildren html = []) := by
  constructor
  · intro ht hd
    have hh : html ≠ "" := by
      intro h0
      subst h0
      exact ht rfl
    simp [parseBlocks, hh, hd, ht]
  · intro h
    simp [parseBlocks, h]

/-- Witness for C10: a bare text string with no tags is wrapped in a
paragraph, and the empty string yields no blocks. -/
theorem parseBlocks_plain_text_wrapping_witness :
    parseBlocks (fun _ => []) "hello" = ["<p>" ++ "hello" ++ "</p>"] ∧
      parseBlocks (fun _ => []) "" = [] :=
  ⟨(parseBlocks_plain_text_wrapping (fun _ => []) "hello").1 (by decide) rfl,
    (parseBlocks_plain_text_wrapping (fun _ => []) "").2 (Or.inl rfl)⟩

theorem uniform_fits (h : ℚ) (h0 : 0 < h) (c : ℕ)
    (hc : c < Nat.floor (PAGE_BODY_HEIGHT / h)) :
    ((c : ℚ) + 1) * h ≤ PAGE_BODY_HEIGHT := by
  have hCpos : (0:ℚ) ≤ PAGE_BODY_HEIGHT / h := by
    apply div_nonneg _ (le_of_lt h0)
    rw [PAGE_BODY_HEIGHT_eq]
    norm_num
  have h1 : (c + 1 : ℕ) ≤ Nat.floor (PAGE_BODY_HEIGHT / h) := hc
  have h2 : ((c + 1 : ℕ) : ℚ) ≤ PAGE_BODY_HEIGHT / h :=
    le_trans (by exact_mod_cast h1) (Nat.floor_le hCpos)
  have h3 := (le_div_iff h0).mp h2
  push_cast at h3
  linarith

theorem uniform_overflows (h : ℚ) (h0 : 0 < h) (c : ℕ)
    (hc : Nat.floor (PAGE_BODY_HEIGHT / h) ≤ c) :
    PAGE_BODY_HEIGHT < ((c : ℚ) + 1) * h := by
  have h2 : PAGE_BODY_HEIGHT / h < (c : ℚ) + 1 := by
    have hfl := Nat.lt_floor_add_one (PAGE_BODY_HEIGHT / h)
    have hcast : ((Nat.floor (PAGE_BODY_HEIGHT / h) : ℚ) + 1) ≤ (c : ℚ) + 1 := by
      have : (Nat.floor (PAGE_BODY_HEIGHT / h) : ℚ) ≤ (c : ℚ) := by exact_mod_cast hc
      linarith
    linarith
  exact (div_lt_iff h0).mp h2

theorem uniform_k_pos (h : ℚ) (h0 : 0 < h) (hC : h < PAGE_BODY_HEIGHT) :
    1 ≤ Nat.floor (PAGE_BODY_HEIGHT / h) := by
  apply Nat.le_floor
  rw [Nat.cast_one, le_div_iff h0]
  linarith

/-- One loop step preserves the uniform-height invariant: closed pages hold
exactly floor(C / h) blocks, the current page at most that many, and the
accumulated height is the block count times h. -/
theorem paginateStep_uniform (measure : String → ℚ) (h : ℚ) (h0 : 0 < h)
    (hC : h < PAGE_BODY_HEIGHT) (s : PagState) (b : String)
    (hmb : measure b = h) (hnb : isHardPageBreak b = false)
    (i1 : s.currentPage.blocks.length ≤ Nat.floor (PAGE_BODY_HEIGHT / h))
    (i2 : s.currentHeight = (s.currentPage.blocks.length : ℚ) * h)
    (i3 : ∀ p ∈ s.result, p.blocks.length = Nat.floor (PAGE_BODY_HEIGHT / h)) :
    (paginateStep measure s b).currentPage.blocks.length ≤
        Nat.floor (PAGE_BODY_HEIGHT / h) ∧
      (paginateStep measure s b).currentHeight =
        ((paginateStep measure s b).currentPage.blocks.length : ℚ) * h ∧
      ∀ p ∈ (paginateStep measure s b).result,
        p.blocks.length = Nat.floor (PAGE_BODY_HEIGHT / h) := by
  by_cases hov : s.currentHeight + measure b > PAGE_BODY_HEIGHT ∧
      s.currentPage.blocks.length > 0
  · have hfull : s.currentPage.blocks.length = Nat.floor (PAGE_BODY_HEIGHT / h) := by
      by_contra hne
      have hlt : s.currentPage.blocks.length < Nat.floor (PAGE_BODY_HEIGHT / h) :=
        lt_of_le_of_ne i1 hne
      have hfits := uniform_fits h h0 s.currentPage.blocks.length hlt
      have hgt := hov.1
      rw [i2, hmb] at hgt
      have : (s.currentPage.blocks.length : ℚ) * h + h =
          ((s.currentPage.blocks.length : ℚ) + 1) * h := by ring
      linarith
    rw [paginateStep_overflow measure s b hnb hov]
    refine ⟨?_, ?_, ?_⟩
    · simpa using uniform_k_pos h h0 hC
    · simp [hmb]
    · intro p hp
      rcases List.mem_append.mp hp with hmem | hmem
      · exact i3 p hmem
      · rw [List.mem_singleton.mp hmem]
        exact hfull
  · rw [paginateStep_fit measure s b hnb hov]
    have hlen1 : s.currentPage.blocks.length + 1 ≤ Nat.floor (PAGE_BODY_HEIGHT / h) := by
      rcases Nat.eq_zero_or_pos s.currentPage.blocks.length with hz | hpos
      · rw [hz]
        exact uniform_k_pos h h0 hC
      · have hle : s.currentHeight + measure b ≤ PAGE_BODY_HEIGHT :=
          le_of_not_lt (fun hgt => hov ⟨hgt, hpos⟩)
        rw [i2, hmb] at hle
        apply Nat.le_floor
        rw [le_div_iff h0]
        push_cast
        linarith
    refine ⟨by simpa using hlen1, ?_, i3⟩
    simp only [List.length_append, List.length_singleton]
    rw [i2, hmb]
    push_cast
    ring

/-- The uniform-height invariant holds through the whole fold. -/
theorem foldl_paginateStep_uniform (measure : String → ℚ) (h : ℚ) (h0 : 0 < h)
    (hC : h < PAGE_BODY_HEIGHT) (bs : List String) :
    ∀ s : PagState, (∀ b ∈ bs, measure b = h) → (∀ b ∈ bs, isHardPageBreak b = false) →
      s.currentPage.blocks.length ≤ Nat.floor (PAGE_BODY_HEIGHT / h) →
      s.currentHeight = (s.currentPage.blocks.length : ℚ) * h →
      (∀ p ∈ s.result, p.blocks.length = Nat.floor (PAGE_BODY_HEIGHT / h)) →
      (bs.foldl (paginateStep measure) s).currentPage.blocks.length ≤
          Nat.floor (PAGE_BODY_HEIGHT / h) ∧
        (bs.foldl (paginateStep measure) s).currentHeight =
          (((bs.foldl (paginateStep measure) s).currentPage.blocks.length : ℚ)) * h ∧
        ∀ p ∈ (bs.foldl (paginateStep measure) s).result,
          p.blocks.length = Nat.floor (PAGE_BODY_HEIGHT / h) := by
  induction bs with
  | nil => intro s _ _ i1 i2 i3; exact ⟨i1, i2, i3⟩
  | cons b rest ih =>
    intro s hm hn i1 i2 i3
    rw [List.foldl_cons]
    have hstep := paginateStep_uniform measure h h0 hC s b
      (hm b (List.mem_cons_self b rest)) (hn b (List.mem_cons_self b rest)) i1 i2 i3
    exact ih (paginateStep measure s b)
      (fun x hx => hm x (List.mem_cons_of_mem b hx))
      (fun x hx => hn x (List.mem_cons_of_mem b hx))
      hstep.1 hstep.2.1 hstep.2.2

/-- Claim C6: uniform-height bin packing.  If every block of the input has
the same measured height h with 0 < h < PAGE_BODY_HEIGHT and none is a hard
break, then every output page except the last holds exactly
floor(PAGE_BODY_HEIGHT / h) blocks, and no page holds more. -/
theorem paginate_uniform_height (measure : String → ℚ) (h : ℚ) (bs : List String)
    (h0 : 0 < h) (hC : h < PAGE_BODY_HEIGHT)
    (hm : ∀ b ∈ bs, measure b = h) (hn : ∀ b ∈ bs, isHardPageBreak b = false) :
    (∀ p ∈ (paginate measure bs).dropLast,
        p.blocks.length = Nat.floor (PAGE_BODY_HEIGHT / h)) ∧
      ∀ p ∈ paginate measure bs, p.blocks.length ≤ Nat.floor (PAGE_BODY_HEIGHT / h) := by
  unfold paginate
  by_cases hz : bs.length = 0
  · simp only [hz, if_true]
    constructor
    · intro p hp
      simp at hp
    · intro p hp
      rw [List.mem_singleton.mp hp]
      exact Nat.zero_le _
  · simp only [hz, if_false]
    have hinv := foldl_paginateStep_uniform measure h h0 hC bs ⟨[], ⟨[]⟩, 0⟩ hm hn
      (Nat.zero_le _) (by simp) (by intro p hp; simp at hp)
    by_cases hc : (bs.foldl (paginateStep measure) ⟨[], ⟨[]⟩, 0⟩).currentPage.blocks.length > 0 ∨
        (bs.foldl (paginateStep measure) ⟨[], ⟨[]⟩, 0⟩).result.length = 0
    · simp only [hc, if_true]
      constructor
      · intro p hp
        rw [List.dropLast_concat] at hp
        exact hinv.2.2 p hp
      · intro p hp
        rcases List.mem_append.mp hp with hmem | hmem
        · exact le_of_eq (hinv.2.2 p hmem)
        · rw [List.mem_singleton.mp hmem]
          exact hinv.1
    · simp only [hc, if_false]
      constructor
      · intro p hp
        exact hinv.2.2 p ((List.dropLast_prefix _).subset hp)
      · intro p hp
        exact le_of_eq (hinv.2.2 p hp)

/-- Witness for C6 at the spec values: with h = 40 the per-page block count
is floor(864 / 40) = 21, checked on a 22-block document. -/
theorem paginate_uniform_height_witness :
    Nat.floor (PAGE_BODY_HEIGHT / (40:ℚ)) = 21 ∧
      (∀ p ∈ (paginate (fun _ => (40:ℚ)) (List.replicate 22 "<p>x</p>")).dropLast,
          p.blocks.length = 21) ∧
      ∀ p ∈ paginate (fun _ => (40:ℚ)) (List.replicate 22 "<p>x</p>"),
        p.blocks.length ≤ 21 := by
  have hfl : Nat.floor (PAGE_BODY_HEIGHT / (40:ℚ)) = 21 := by
    rw [PAGE_BODY_HEIGHT_eq]
    norm_num [Nat.floor_eq_iff]
  have hmain := paginate_uniform_height (fun _ => (40:ℚ)) 40 (List.replicate 22 "<p>x</p>")
    (by norm_num) (by rw [PAGE_BODY_HEIGHT_eq]; norm_num)
    (fun b _ => rfl)
    (fun b hb => by rw [List.eq_of_mem_replicate hb]; decide)
  rw [hfl] at hmain
  exact ⟨hfl, hmain.1, hmain.2⟩

/-- Counterexample for C7: the measured height is not always non-negative.
With a renderable element of rect height 10 whose computed margin-top parses
to -50 (negative CSS margins are legal), measureBlock returns a negative
height. -/
theorem measureBlock_negative_margin_cex :
    (measureBlock (some (fun _ => some ⟨some (-50), some 0, 10⟩)) "<p>x</p>" "").1 < 0 := by
  norm_num [measureBlock]

/-- Claim C7 as amended: the measurer is total, returns the fixed fallback
height 40 both when the measurement surface is unavailable and when the
fragment has no renderable element (never zero, never an error), and the
returned height is non-negative whenever the rect height and the parsed
computed margins are non-negative.  (The unconditional non-negativity in the
original claim fails for negative computed margins, see the
counterexample.) -/
theorem measureBlock_total_fallback :
    (∀ b s : String, measureBlock none b s = (40, s)) ∧
      (∀ (q : String → Option ElementInfo) (b s : String), q b = none →
        measureBlock (some q) b s = (40, "")) ∧
      ∀ (q : String → Option ElementInfo) (b s : String) (el : ElementInfo),
        q b = some el → 0 ≤ el.rectHeight → 0 ≤ el.marginTopStyle.getD 0 →
        0 ≤ el.marginBottomStyle.getD 0 → 0 ≤ (measureBlock (some q) b s).1 := by
  refine ⟨fun b s => rfl, ?_, ?_⟩
  · intro q b s hq
    simp [measureBlock, hq]
  · intro q b s el hq h1 h2 h3
    simp only [measureBlock, hq]
    exact add_nonneg (add_nonneg h1 h2) h3

/-- Witness for the amended C7: the fallback cases at concrete inputs, and a
non-negative measurement for a well-behaved element. -/
theorem measureBlock_total_fallback_witness :
    measureBlock none "<p>x</p>" "abc" = (40, "abc") ∧
      measureBlock (some (fun _ => none)) "<p>x</p>" "abc" = (40, "") ∧
      0 ≤ (measureBlock (some (fun _ => some ⟨some 5, none, 10⟩)) "<p>x</p>" "abc").1 :=
  ⟨measureBlock_total_fallback.1 "<p>x</p>" "abc",
    measureBlock_total_fallback.2.1 (fun _ => none) "<p>x</p>" "abc" rfl,
    measureBlock_total_fallback.2.2 (fun _ => some ⟨some 5, none, 10⟩) "<p>x</p>" "abc"
      ⟨some 5, none, 10⟩ rfl (by norm_num) (by norm_num) (by norm_num)⟩

/-- The height component reported by measureBlock does not depend on the
incoming surface contents. -/
theorem measureBlock_fst (dom : Option (String → Option ElementInfo)) (b s : String) :
    (measureBlock dom b s).1 = measuredHeight dom b := by
  cases dom <;> rfl

/-- The page-list component of the stateful fold agrees with the pure fold
run with the surface-independent height function. -/
theorem foldl_paginateStepS_fst (dom : Option (String → Option ElementInfo))
    (bs : List String) :
    ∀ ps : PagState × String,
      (bs.foldl (paginateStepS dom) ps).1 =
        bs.foldl (paginateStep (measuredHeight dom)) ps.1 := by
  induction bs with
  | nil => intro ps; rfl
  | cons b rest ih =>
    intro ps
    rw [List.foldl_cons, List.foldl_cons, ih]
    congr 1
    by_cases hb : isHardPageBreak b
    · simp [paginateStepS, paginateStep, hb]
    · simp only [paginateStepS, paginateStep, hb, Bool.false_eq_true, if_false,
        measureBlock_fst]
      by_cases hov : ps.1.currentHeight + measuredHeight dom b > PAGE_BODY_HEIGHT ∧
          ps.1.currentPage.blocks.length > 0
      · simp [hov]
      · simp [hov]

/-- The page list produced by the stateful pagination equals the pure
pagination with the surface-independent measurer. -/
theorem paginateS_fst (dom : Option (String → Option ElementInfo)) (bs : List String)
    (surface : String) :
    (paginateS dom bs surface).1 = paginate (measuredHeight dom) bs := by
  unfold paginateS paginate
  by_cases h0 : bs.length = 0
  · simp [h0]
  · simp only [h0, if_false]
    rw [foldl_paginateStepS_fst]

/-- Claim C8: idempotence and determinism.  Re-running the stateful
pagination on the same blocks, starting from the measurement-surface state
left behind by the first run, yields the identical page list: no state leaks
between runs, pagination is a pure function of blocks and measurer. -/
theorem paginateS_idempotent (dom : Option (String → Option ElementInfo))
    (bs : List String) (surface : String) :
    (paginateS dom bs ((paginateS dom bs surface).2)).1 = (paginateS dom bs surface).1 := by
  rw [paginateS_fst, paginateS_fst]
